import Mathlib

/-!
Verification of the EvoVerse memory subsystem: a shallow embedding of
`evoverse/memory/memory_store.py`, `evoverse/core/llm_client.py`
(`ConversationMemory`) and `evoverse/memory/conversation_manager.py`
(`ConversationManager`), together with theorems settling the behavioural
claims about them.

Modelling conventions:
* Python `float` values (importance, scores) are modelled as `ℚ`.
* Python `datetime` values are modelled as `ℤ` (for the memory store,
  seconds since an arbitrary epoch; `timedelta.days` becomes flooring
  division by 86400) or `ℕ` (for session timestamps, where only their
  relative order matters; ISO-8601 strings of increasing datetimes
  compare in the same order).
* `hashlib.md5(x.encode()).hexdigest()` is an opaque external function;
  every definition that uses it takes an explicit `md5hex : String → String`
  parameter, and every theorem quantifies over it.  No claim depends on
  the actual MD5 function.
* Python `dict`s are modelled as association lists in insertion order:
  assigning to an existing key replaces it in place, assigning to a fresh
  key appends at the end, `del` removes the entry.
* `list.sort(key=k, reverse=True)` / `sorted(items, key=k)` are stable;
  they are modelled by `List.insertionSort` with the relation
  `fun a b => k b ≤ k a` (resp. `fun a b => k a ≤ k b`), which places an
  earlier element before later elements of equal key, exactly as CPython's
  stable sort does.
-/

namespace EvoVerse

/-- Python dict assignment `d[k] = v`: replace in place if the key exists,
otherwise append at the end (Python dicts preserve insertion order). -/
def dictInsert {β : Type} (k : String) (v : β) : List (String × β) → List (String × β)
  | [] => [(k, v)]
  | (k', v') :: t => if k' = k then (k, v) :: t else (k', v') :: dictInsert k v t

/-- Python dict deletion `del d[k]` (no-op when the key is absent, which is
how it is only ever reached in the modelled code paths). -/
def dictRemove {β : Type} (k : String) (l : List (String × β)) : List (String × β) :=
  l.filter (fun p => p.1 ≠ k)

/-- Python slice `l[b:]` for an arbitrary integer bound `b`, including the
`l[-0:] = l` and negative-bound cases. -/
def pySliceFrom {α : Type} (b : ℤ) (l : List α) : List α :=
  if b < 0 then l.drop (max 0 ((l.length : ℤ) + b)).toNat
  else l.drop (min b (l.length : ℤ)).toNat

/-- A concrete stand-in used to instantiate the abstract `md5hex`
parameter in closed, fully evaluated statements. -/
def md5Stub (s : String) : String := s

/-! ## Learning memory store (`evoverse/memory/memory_store.py`) -/

/-- `MemoryCategory(str, Enum)`, in declaration order. -/
inductive MemoryCategory : Type
  | success_patterns
  | failure_patterns
  | dead_ends
  | insights
  | general
deriving DecidableEq, Repr

/-- `list(MemoryCategory)`: the enum members in declaration order. -/
def allCategories : List MemoryCategory :=
  [.success_patterns, .failure_patterns, .dead_ends, .insights, .general]

/-- The `.value` string of a category member. -/
def MemoryCategory.value : MemoryCategory → String
  | .success_patterns => "success_patterns"
  | .failure_patterns => "failure_patterns"
  | .dead_ends => "dead_ends"
  | .insights => "insights"
  | .general => "general"

/-- A single memory entry (`class Memory(BaseModel)`).  The `Dict[str, Any]`
payload `data` is modelled as a string-keyed association list with string
values; no modelled operation inspects it. -/
structure Memory : Type where
  id : String
  category : MemoryCategory
  content : String
  data : List (String × String)
  importance : ℚ
  access_count : ℕ
  created_at : ℤ
  last_accessed : ℤ
  tags : List String
deriving DecidableEq, Repr

/-- `Memory.access`: bump the access count and refresh the last-accessed
time to the current time `now`. -/
def Memory.access (now : ℤ) (m : Memory) : Memory :=
  { m with access_count := m.access_count + 1, last_accessed := now }

/-- `class ExperimentSignature(BaseModel)`. -/
structure ExperimentSignature : Type where
  hypothesis_hash : String
  protocol_hash : String
  combined_hash : String
  created_at : ℤ
deriving DecidableEq, Repr

/-- The state of a `MemoryStore` instance.  `memories` is the per-category
dict, initialised with every category present. -/
structure MemoryStore : Type where
  max_memories : ℕ
  memories : MemoryCategory → List Memory
  experiment_signatures : List (String × ExperimentSignature)
  prune_after_days : ℤ
  min_importance_to_keep : ℚ

/-- `MemoryStore()` with the default configuration
(`max_memories=1000`, `prune_after_days=30`, `min_importance_to_keep=0.3`);
0.3 is written as the normal-form rational 3/10. -/
def emptyStore : MemoryStore :=
  { max_memories := 1000
    memories := fun _ => []
    experiment_signatures := []
    prune_after_days := 30
    min_importance_to_keep := (⟨3, 10, by decide, by decide⟩ : ℚ) }

/-- Pydantic validation of the `importance` field:
`Field(0.5, ge=0.0, le=1.0)` rejects values outside `[0, 1]`
(`ValidationError`, modelled as `none`). -/
def mkMemory (id : String) (category : MemoryCategory) (content : String)
    (data : List (String × String)) (importance : ℚ) (tags : List String)
    (now : ℤ) : Option Memory :=
  if 0 ≤ importance ∧ importance ≤ 1 then
    some { id := id, category := category, content := content, data := data,
           importance := importance, access_count := 0, created_at := now,
           last_accessed := now, tags := tags }
  else none

/-- The retention predicate of `MemoryStore._prune_memories`: a memory is
kept iff its importance reaches `min_importance_to_keep` or it was created
after `now - prune_after_days` (a `timedelta` of `prune_after_days` days is
`prune_after_days * 86400` seconds). -/
def pruneKeep (s : MemoryStore) (now : ℤ) (m : Memory) : Bool :=
  decide (s.min_importance_to_keep ≤ m.importance) ||
    decide (now - s.prune_after_days * 86400 < m.created_at)

/-- `MemoryStore._prune_memories`: filter every category list by
`pruneKeep`. -/
def pruneMemories (s : MemoryStore) (now : ℤ) : MemoryStore :=
  { s with memories := fun c => (s.memories c).filter (pruneKeep s now) }

/-- `MemoryStore.add_memory`.  The id is the first 16 hex characters of the
MD5 of `f"{category}:{content}:{datetime.utcnow()}"`; the timestamp is
rendered by an (irrelevant) `toString`.  Constructing the `Memory` can fail
pydantic validation when `importance` lies outside `[0, 1]`; that
`ValidationError` propagates, modelled as `none`. -/
def add_memory (md5hex : String → String) (s : MemoryStore) (now : ℤ)
    (category : MemoryCategory) (content : String) (importance : ℚ)
    (data : Option (List (String × String))) (tags : Option (List String)) :
    Option (String × MemoryStore) :=
  let memory_id :=
    (md5hex (category.value ++ ":" ++ content ++ ":" ++ toString now)).take 16
  (mkMemory memory_id category content (data.getD []) importance
      (tags.getD []) now).map fun memory =>
    let s1 : MemoryStore :=
      { s with memories := fun c =>
          if c = category then s.memories category ++ [memory]
          else s.memories c }
    (memory_id, pruneMemories s1 now)

/-- The categories scanned by a query: `[category]` when one is given,
otherwise `list(MemoryCategory)`. -/
def categoriesOf (category : Option MemoryCategory) : List MemoryCategory :=
  match category with
  | some c => [c]
  | none => allCategories

/-- The filter applied to each memory by `MemoryStore.query_memory`:
importance at least `min_importance`, and — when the `tags` argument is
truthy, i.e. a non-empty list — at least one shared tag. -/
def queryKeep (tags : List String) (min_importance : ℚ) (m : Memory) : Bool :=
  decide (min_importance ≤ m.importance) &&
    (tags.isEmpty || tags.any (fun tag => m.tags.contains tag))

/-- The ranking key of `query_memory`:
`importance * (1.0 / max(1, (utcnow - created_at).days + 1))`.
`timedelta.days` floors, hence `Int.fdiv` by 86400. -/
def score (now : ℤ) (m : Memory) : ℚ :=
  m.importance * (1 / (max 1 (Int.fdiv (now - m.created_at) 86400 + 1) : ℚ))

/-- The candidate list of `query_memory`, with each surviving memory paired
with its position (category, index) in the store — the model of Python
object identity, needed to express the in-place `Memory.access` mutation.
Categories are scanned in declaration order, each category in list order. -/
def candidateRefs (s : MemoryStore) (category : Option MemoryCategory)
    (tags : List String) (min_importance : ℚ) :
    List (MemoryCategory × ℕ × Memory) :=
  (categoriesOf category).flatMap fun c =>
    ((s.memories c).enum.filter fun p => queryKeep tags min_importance p.2).map
      fun p => (c, p.1, p.2)

/-- The post-limit slice of `query_memory`'s sorted result list:
`results.sort(key=score, reverse=True)` (stable descending) followed by
`results[:limit]`. -/
def returnedRefs (s : MemoryStore) (now : ℤ) (category : Option MemoryCategory)
    (tags : List String) (min_importance : ℚ) (limit : ℕ) :
    List (MemoryCategory × ℕ × Memory) :=
  (List.insertionSort (fun a b => score now b.2.2 ≤ score now a.2.2)
      (candidateRefs s category tags min_importance)).take limit

/-- Replace the element at one index of a list (model of mutating one
Python list element in place). -/
def listModify {α : Type} (f : α → α) : ℕ → List α → List α
  | _, [] => []
  | 0, a :: l => f a :: l
  | n + 1, a :: l => a :: listModify f n l

/-- Mutate the memory at position (category, index) of the store in place. -/
def storeModify (s : MemoryStore) (c : MemoryCategory) (i : ℕ)
    (f : Memory → Memory) : MemoryStore :=
  { s with memories := fun c' =>
      if c' = c then listModify f i (s.memories c) else s.memories c' }

/-- `MemoryStore.query_memory`: gather and filter candidates, sort by
decayed importance (stable, descending), call `.access()` on exactly the
post-limit slice, and return those (mutated) entries.  Returns the result
list together with the mutated store. -/
def query_memory (s : MemoryStore) (now : ℤ) (category : Option MemoryCategory)
    (tags : List String) (min_importance : ℚ) (limit : ℕ) :
    List Memory × MemoryStore :=
  let returned := returnedRefs s now category tags min_importance limit
  (returned.map fun r => Memory.access now r.2.2,
   returned.foldl (fun st r => storeModify st r.1 r.2.1 (Memory.access now)) s)

/-- Splitting a character stream on whitespace runs, discarding empty
pieces; `acc` holds the reversed characters of the word being read. -/
def splitWords : List Char → List Char → List String
  | [], acc => if acc.isEmpty then [] else [String.mk acc.reverse]
  | c :: cs, acc =>
    if c.isWhitespace then
      (if acc.isEmpty then [] else [String.mk acc.reverse]) ++ splitWords cs []
    else splitWords cs (c :: acc)

/-- Python `str.lower().split()`: lowercase every character, split on
whitespace runs, discard empty pieces.  (`Char.toLower`/`Char.isWhitespace`
cover the ASCII cases; no modelled claim depends on non-ASCII case
folding.) -/
def pyWords (s : String) : List String :=
  splitWords (s.data.map Char.toLower) []

/-- `len(set(a) & set(b))` for the token lists of a query and a content
string: the number of distinct query tokens that occur among the content
tokens. -/
def overlap (query content : String) : ℕ :=
  ((pyWords query).dedup.filter fun w => (pyWords content).contains w).length

/-- The candidate (memory, overlap) pairs of `MemoryStore.search_similar`:
every scanned memory sharing at least 2 keywords with the query, in scan
order. -/
def similarCandidates (s : MemoryStore) (query : String)
    (category : Option MemoryCategory) : List (Memory × ℕ) :=
  (categoriesOf category).flatMap fun c =>
    (s.memories c).filterMap fun m =>
      if 2 ≤ overlap query m.content then some (m, overlap query m.content)
      else none

/-- `MemoryStore.search_similar`: rank the candidates by overlap
(stable, descending), take `limit`, drop the overlap counts.  The store is
returned unchanged: this operation performs no mutation (in particular it
does not mark access). -/
def search_similar (s : MemoryStore) (query : String)
    (category : Option MemoryCategory) (limit : ℕ) :
    List Memory × MemoryStore :=
  ((List.insertionSort (fun a b => b.2 ≤ a.2)
      (similarCandidates s query category)).take limit |>.map Prod.fst, s)

/-- The 16-hex-character hypothesis fingerprint
`hashlib.md5(hypothesis.encode()).hexdigest()[:16]`. -/
def hypothesisHash (md5hex : String → String) (hypothesis : String) : String :=
  (md5hex hypothesis).take 16

/-- The protocol fingerprint: the truncated MD5 when `protocol` is truthy
(present and non-empty), the sentinel `"none"` otherwise — `if protocol:`
treats `None` and `""` alike. -/
def protocolHash (md5hex : String → String) (protocol : Option String) : String :=
  match protocol with
  | some p => if p ≠ "" then (md5hex p).take 16 else "none"
  | none => "none"

/-- The combined fingerprint
`hashlib.md5(f"{hypothesis_hash}:{protocol_hash}".encode()).hexdigest()`. -/
def combinedHash (md5hex : String → String) (hypothesis : String)
    (protocol : Option String) : String :=
  md5hex (hypothesisHash md5hex hypothesis ++ ":" ++ protocolHash md5hex protocol)

/-- `MemoryStore.record_experiment`: store the signature triple under the
combined fingerprint and return that fingerprint. -/
def record_experiment (md5hex : String → String) (s : MemoryStore) (now : ℤ)
    (hypothesis : String) (protocol : Option String) : String × MemoryStore :=
  let combined := combinedHash md5hex hypothesis protocol
  let signature : ExperimentSignature :=
    { hypothesis_hash := hypothesisHash md5hex hypothesis
      protocol_hash := protocolHash md5hex protocol
      combined_hash := combined
      created_at := now }
  (combined,
   { s with experiment_signatures :=
      dictInsert combined signature s.experiment_signatures })

/-- `MemoryStore.is_duplicate_experiment`: recompute the combined
fingerprint and report whether it is a key of the signature index,
together with a reason string when it is. -/
def is_duplicate_experiment (md5hex : String → String) (s : MemoryStore)
    (hypothesis : String) (protocol : Option String) : Bool × Option String :=
  let combined := combinedHash md5hex hypothesis protocol
  match s.experiment_signatures.lookup combined with
  | some _ => (true, some ("Duplicate of experiment " ++ combined))
  | none => (false, none)

/-! ## Conversation window (`evoverse/core/llm_client.py`, `ConversationMemory`) -/

/-- One entry of `ConversationMemory.messages`:
`{"role": ..., "content": ..., "timestamp": datetime.now().isoformat()}`.
Timestamps are modelled as `ℕ`. -/
structure Message : Type where
  role : String
  content : String
  timestamp : ℕ
deriving DecidableEq, Repr

/-- The state of a `ConversationMemory` instance.  `max_history` is a
Python `int` and may be zero or negative, which matters for the slicing
behaviour of `add_message`. -/
structure ConversationMemory : Type where
  max_history : ℤ
  messages : List Message
  created_at : ℕ
  last_accessed : ℕ
deriving DecidableEq, Repr

/-- `ConversationMemory(max_history)` constructed at time `now`. -/
def ConversationMemory.mk0 (max_history : ℤ) (now : ℕ) : ConversationMemory :=
  { max_history := max_history, messages := [], created_at := now,
    last_accessed := now }

/-- `ConversationMemory.add_message`: append the timestamped turn; if the
length now exceeds `max_history`, keep `messages[-max_history:]` — note
that for `max_history = 0` this slice is the whole list; refresh
`last_accessed`. -/
def ConversationMemory.add_message (m : ConversationMemory) (role content : String)
    (now : ℕ) : ConversationMemory :=
  let msgs := m.messages ++ [{ role := role, content := content, timestamp := now }]
  { m with
    messages := if m.max_history < (msgs.length : ℤ)
      then pySliceFrom (-m.max_history) msgs else msgs
    last_accessed := now }

/-- `ConversationMemory.get_messages`: the (role, content) projections, in
order, optionally excluding `role == "system"` entries. -/
def ConversationMemory.get_messages (m : ConversationMemory)
    (include_system : Bool) : List (String × String) :=
  (m.messages.filter fun msg => include_system || msg.role ≠ "system").map
    fun msg => (msg.role, msg.content)

/-! ## Session registry (`evoverse/memory/conversation_manager.py`) -/

/-- The metadata dict created for a session:
`{created_at, last_accessed, message_count, max_history}`.  The two
timestamps are ISO-8601 strings in Python, modelled as `ℕ` (the string
order of ISO timestamps is their chronological order). -/
structure SessionMeta : Type where
  created_at : ℕ
  last_accessed : ℕ
  message_count : ℕ
  max_history : ℤ
deriving DecidableEq, Repr

/-- The JSON document written by `save_session`, as read back by
`load_session`.  Each field is `Option`-valued: `none` models a key that is
missing from the document or whose value cannot be parsed (a `KeyError` or
`ValueError` at the corresponding line of `load_session`).  The top-level
`max_history` key is consulted by `load_session` via
`data.get("max_history", 50)` but is never written by `save_session`. -/
structure SessionRecord : Type where
  messages : Option (List Message)
  created_at : Option ℕ
  last_accessed : Option ℕ
  metadata : Option SessionMeta
  max_history : Option ℤ
deriving DecidableEq, Repr

/-- The durable storage directory: one record per session id. -/
abbrev Storage : Type := List (String × SessionRecord)

/-- The state of a `ConversationManager` instance (its two dicts plus the
`max_sessions` bound). -/
structure Registry : Type where
  active_sessions : List (String × ConversationMemory)
  session_metadata : List (String × SessionMeta)
  max_sessions : ℕ
deriving DecidableEq, Repr

/-- A `ConversationManager` before any session exists: both dicts empty. -/
def emptyRegistry (max_sessions : ℕ) : Registry :=
  { active_sessions := [], session_metadata := [], max_sessions := max_sessions }

/-- `ConversationManager.delete_session`: drop the session from both dicts
(when active) and unlink its persisted file (when present); idempotent. -/
def delete_session (reg : Registry) (st : Storage) (session_id : String) :
    Registry × Storage :=
  (if (reg.active_sessions.lookup session_id).isSome then
    { reg with
      active_sessions := reg.active_sessions.filter fun p => p.1 ≠ session_id
      session_metadata := reg.session_metadata.filter fun p => p.1 ≠ session_id }
   else reg,
   dictRemove session_id st)

/-- `ConversationManager._cleanup_old_sessions`: when the active count
exceeds `max_sessions`, sort the metadata items by last-accessed ascending
(stable) and delete the first `count - max_sessions + 1` of them, each via
`delete_session`. -/
def cleanup_old_sessions (reg : Registry) (st : Storage) : Registry × Storage :=
  if reg.active_sessions.length ≤ reg.max_sessions then (reg, st)
  else
    let sorted := List.insertionSort
      (fun a b => a.2.last_accessed ≤ b.2.last_accessed) reg.session_metadata
    let to_delete := sorted.take (sorted.length - reg.max_sessions + 1)
    to_delete.foldl (fun acc p => delete_session acc.1 acc.2 p.1) (reg, st)

/-- `ConversationManager.create_session`: synthesize an id when none is
given; fail (`ValueError`, modelled as `none`) when the id is already
active; install a fresh window and metadata; then run the cleanup. -/
def create_session (reg : Registry) (st : Storage) (session_id : Option String)
    (max_history : ℤ) (now : ℕ) : Option (String × Registry × Storage) :=
  let sid := session_id.getD ("session_" ++ toString now)
  if (reg.active_sessions.lookup sid).isSome then none
  else
    let meta : SessionMeta :=
      { created_at := now, last_accessed := now, message_count := 0,
        max_history := max_history }
    let reg1 : Registry :=
      { reg with
        active_sessions :=
          dictInsert sid (ConversationMemory.mk0 max_history now) reg.active_sessions
        session_metadata := dictInsert sid meta reg.session_metadata }
    some (sid, cleanup_old_sessions reg1 st)

/-- `ConversationManager.save_session`: no-op (returning the storage
unchanged) when the session is not active; otherwise serialize the window
and its metadata into the session's record.  The uncaught `KeyError` when
the metadata entry is missing is modelled as `none`. -/
def save_session (reg : Registry) (st : Storage) (session_id : String) :
    Option Storage :=
  match reg.active_sessions.lookup session_id with
  | none => some st
  | some session =>
    (reg.session_metadata.lookup session_id).map fun metadata =>
      dictInsert session_id
        { messages := some session.messages
          created_at := some session.created_at
          last_accessed := some session.last_accessed
          metadata := some metadata
          max_history := none }
        st

/-- `ConversationManager.load_session`, including its exception behaviour:
any failure while reading `data["messages"]` or parsing the two timestamps
happens before the registry is touched, but a failure at
`data["metadata"]` happens after `self.active_sessions[session_id]` has
already been assigned — in that case the partially reconstructed session
stays installed even though `False` is returned. -/
def load_session (reg : Registry) (st : Storage) (session_id : String) :
    Bool × Registry :=
  match st.lookup session_id with
  | none => (false, reg)
  | some data =>
    match data.messages with
    | none => (false, reg)
    | some msgs =>
      match data.created_at with
      | none => (false, reg)
      | some ca =>
        match data.last_accessed with
        | none => (false, reg)
        | some la =>
          let memory : ConversationMemory :=
            { max_history := data.max_history.getD 50, messages := msgs,
              created_at := ca, last_accessed := la }
          let reg1 : Registry :=
            { reg with active_sessions :=
                dictInsert session_id memory reg.active_sessions }
          match data.metadata with
          | none => (false, reg1)
          | some md =>
            (true,
             { reg1 with session_metadata :=
                dictInsert session_id md reg1.session_metadata })

/-! ## Auxiliary definitions used by the statements -/

/-- A whole run of `add_message` calls against one window, in order. -/
def appendAll (w : ConversationMemory) (ts : List (String × String × ℕ)) :
    ConversationMemory :=
  ts.foldl (fun w t => w.add_message t.1 t.2.1 t.2.2) w

/-- The turn a single `(role, content, timestamp)` triple appends. -/
def mkMsg (t : String × String × ℕ) : Message :=
  { role := t.1, content := t.2.1, timestamp := t.2.2 }

/-- The position (category, index) a query candidate refers to. -/
def refKey (r : MemoryCategory × ℕ × Memory) : MemoryCategory × ℕ :=
  (r.1, r.2.1)

/-- A persisted record that parses up to and including the two timestamps
but has no `metadata` key: the corrupt-record shape on which
`load_session` installs a partial session. -/
def badRecord : SessionRecord :=
  { messages := some [], created_at := some 0, last_accessed := some 0,
    metadata := none, max_history := none }

/-- A concrete one-message window, for round-trip witnesses. -/
def c9mem : ConversationMemory :=
  { max_history := 7, messages := [{ role := "user", content := "hi", timestamp := 1 }],
    created_at := 0, last_accessed := 1 }

/-- The metadata of `c9mem`'s session. -/
def c9meta : SessionMeta :=
  { created_at := 0, last_accessed := 1, message_count := 1, max_history := 7 }

/-- A concrete registry holding exactly the session "s" = `c9mem`. -/
def c9reg : Registry :=
  { active_sessions := [("s", c9mem)], session_metadata := [("s", c9meta)],
    max_sessions := 100 }

/-- The registry state after creating S1 (at time 1) and S2 (at time 2)
with `max_sessions = 2`: the input of the over-capacity creation of S3. -/
def c1regBefore : Registry :=
  { active_sessions :=
      [("S1", ConversationMemory.mk0 50 1), ("S2", ConversationMemory.mk0 50 2)],
    session_metadata :=
      [("S1", { created_at := 1, last_accessed := 1, message_count := 0,
                max_history := 50 }),
       ("S2", { created_at := 2, last_accessed := 2, message_count := 0,
                max_history := 50 })],
    max_sessions := 2 }

/-- The registry state the code leaves after creating S3 at time 3 on
`c1regBefore`: only S3 survives. -/
def c1regAfter : Registry :=
  { active_sessions := [("S3", ConversationMemory.mk0 50 3)],
    session_metadata :=
      [("S3", { created_at := 3, last_accessed := 3, message_count := 0,
                max_history := 50 })],
    max_sessions := 2 }

/-- Creating sessions S1, S2, S3 (at times 1, 2, 3) against a registry
with `max_sessions = 2` and empty storage. -/
def c1chain : Option (String × Registry × Storage) :=
  (create_session (emptyRegistry 2) [] (some "S1") 50 1).bind fun p1 =>
    (create_session p1.2.1 p1.2.2 (some "S2") 50 2).bind fun p2 =>
      create_session p2.2.1 p2.2.2 (some "S3") 50 3

/-- A concrete memory whose content shares the tokens "cache" and
"performance" with the C6 witness query. -/
def c6Memory : Memory :=
  { id := "m1", category := .general,
    content := "use the cache for performance wins", data := [],
    importance := 1, access_count := 0, created_at := 0,
    last_accessed := 0, tags := [] }

/-- A store holding exactly `c6Memory` (in category `general`). -/
def c6store : MemoryStore :=
  { max_memories := 1000
    memories := fun c => if c = .general then [c6Memory] else []
    experiment_signatures := []
    prune_after_days := 30
    min_importance_to_keep := (⟨3, 10, by decide, by decide⟩ : ℚ) }

/-- The memory store holding one memory "alpha" in category `general`
added before one memory "beta" in category `success_patterns`, both with
importance 1, both created at time 0 — so both carry the same
recency-decayed score. -/
def c4TieStore : Option MemoryStore :=
  (add_memory md5Stub emptyStore 0 .general "alpha" 1 none none).bind fun p1 =>
    (add_memory md5Stub p1.2 0 .success_patterns "beta" 1 none none).map fun p2 =>
      p2.2

/-! ## Helper lemmas -/

theorem lookup_dictInsert_self {β : Type} (k : String) (v : β)
    (l : List (String × β)) : (dictInsert k v l).lookup k = some v := by
  induction l with
  | nil => simp [dictInsert, List.lookup]
  | cons p t ih =>
    obtain ⟨k', v'⟩ := p
    by_cases h : k' = k
    · subst h
      simp [dictInsert, List.lookup]
    · simpa [dictInsert, h, List.lookup, beq_false_of_ne (Ne.symm h)] using ih

/-! ## Claims C7 and C10: experiment deduplication -/

/-- C7.  Recording an experiment and then asking about the same
hypothesis/protocol pair reports a duplicate with a non-null reason, and a
pair whose combined fingerprint is absent from the signature index is
reported as novel with a null reason — for every hash function, store
state and inputs. -/
theorem C7_experiment_dedup (md5hex : String → String) (s : MemoryStore)
    (now : ℤ) (hypothesis : String) (protocol : Option String) :
    ((is_duplicate_experiment md5hex
        (record_experiment md5hex s now hypothesis protocol).2 hypothesis protocol).1 = true ∧
      (is_duplicate_experiment md5hex
        (record_experiment md5hex s now hypothesis protocol).2 hypothesis protocol).2 ≠ none) ∧
    (s.experiment_signatures.lookup (combinedHash md5hex hypothesis protocol) = none →
      is_duplicate_experiment md5hex s hypothesis protocol = (false, none)) := by
  constructor
  · simp [is_duplicate_experiment, record_experiment, lookup_dictInsert_self]
  · intro h
    simp [is_duplicate_experiment, h]

/-- Witness for C7 at concrete inputs: the store is empty, so the
fingerprint of ("H2", "P2") is absent and the pair is novel; after
recording ("H", "P") the same pair is reported duplicate. -/
theorem C7_witness :
    emptyStore.experiment_signatures.lookup (combinedHash md5Stub "H2" (some "P2")) = none ∧
    is_duplicate_experiment md5Stub emptyStore "H2" (some "P2") = (false, none) ∧
    (is_duplicate_experiment md5Stub
      (record_experiment md5Stub emptyStore 0 "H" (some "P")).2 "H" (some "P")).1 = true :=
  ⟨rfl,
   (C7_experiment_dedup md5Stub emptyStore 0 "H2" (some "P2")).2 rfl,
   (C7_experiment_dedup md5Stub emptyStore 0 "H" (some "P")).1.1⟩

/-- C10.  An empty-string protocol is treated exactly like an absent one:
both yield the sentinel protocol fingerprint, the combined fingerprints
coincide, and recording with `""` makes the `None`-protocol query report a
duplicate with a non-null reason. -/
theorem C10_empty_protocol_is_none (md5hex : String → String) (s : MemoryStore)
    (now : ℤ) (hyp : String) :
    protocolHash md5hex (some "") = "none" ∧
    protocolHash md5hex none = "none" ∧
    combinedHash md5hex hyp (some "") = combinedHash md5hex hyp none ∧
    (is_duplicate_experiment md5hex
      (record_experiment md5hex s now hyp (some "")).2 hyp none).1 = true ∧
    (is_duplicate_experiment md5hex
      (record_experiment md5hex s now hyp (some "")).2 hyp none).2 ≠ none := by
  refine ⟨rfl, rfl, rfl, ?_, ?_⟩ <;>
    simp [is_duplicate_experiment, record_experiment, combinedHash,
      protocolHash, lookup_dictInsert_self]

/-! ## Claim C2: `add_memory` and importance validation -/

/-- C2 counterexample.  `add_memory` with importance 2 (outside `[0, 1]`)
does not succeed: pydantic's `Field(0.5, ge=0.0, le=1.0)` validation
rejects the `Memory`, so the write path fails instead of clamping. -/
theorem C2_counterexample :
    add_memory md5Stub emptyStore 0 .general "x" 2 none none = none := by
  have h : ¬ ((0 : ℚ) ≤ 2 ∧ (2 : ℚ) ≤ 1) := by norm_num
  simp [add_memory, mkMemory, h]

/-- C2 as amended.  For every importance inside `[0, 1]` (and every
category, content, tags and data), `add_memory` succeeds, returning an id
and the store in which the new memory — carrying exactly the given fields,
zero access count and creation time `now` — has been appended to its
category's list, after which the pruning pass filters every category. -/
theorem C2_amended (md5hex : String → String) (s : MemoryStore) (now : ℤ)
    (category : MemoryCategory) (content : String) (importance : ℚ)
    (data : Option (List (String × String))) (tags : Option (List String))
    (h0 : 0 ≤ importance) (h1 : importance ≤ 1) :
    ∃ mid s', add_memory md5hex s now category content importance data tags =
        some (mid, s') ∧
      ∃ mem : Memory, mem.category = category ∧ mem.content = content ∧
        mem.importance = importance ∧ mem.created_at = now ∧
        mem.access_count = 0 ∧ mem.tags = tags.getD [] ∧ mem.data = data.getD [] ∧
        s'.memories category = (s.memories category ++ [mem]).filter (pruneKeep s now) ∧
        ∀ c, c ≠ category → s'.memories c = (s.memories c).filter (pruneKeep s now) := by
  simp only [add_memory, mkMemory, if_pos (And.intro h0 h1), Option.map_some']
  refine ⟨_, _, rfl,
    ⟨{ id := (md5hex (category.value ++ ":" ++ content ++ ":" ++ toString now)).take 16,
       category := category, content := content, data := data.getD [],
       importance := importance, access_count := 0, created_at := now,
       last_accessed := now, tags := tags.getD [] },
     rfl, rfl, rfl, rfl, rfl, rfl, rfl, ?_, ?_⟩⟩
  · simp only [pruneMemories, if_true]
    rfl
  · intro c hc
    simp only [pruneMemories, if_neg hc]
    rfl

/-- Witness for C2 as amended, at importance 1/2: the call succeeds. -/
theorem C2_witness :
    (0 : ℚ) ≤ 1 / 2 ∧ (1 / 2 : ℚ) ≤ 1 ∧
    ∃ mid s', add_memory md5Stub emptyStore 0 .general "x" (1 / 2) none none =
      some (mid, s') := by
  refine ⟨by norm_num, by norm_num, ?_⟩
  obtain ⟨mid, s', h, -⟩ :=
    C2_amended md5Stub emptyStore 0 .general "x" (1 / 2) none none
      (by norm_num) (by norm_num)
  exact ⟨mid, s', h⟩

/-! ## Claim C3: `load_session` failure containment -/

/-- C3 counterexample.  A persisted record holding messages and both
timestamps but no metadata key makes `load_session` return false while
nevertheless installing the reconstructed session into the active-session
map: registry state is not left unchanged. -/
theorem C3_counterexample :
    (load_session (emptyRegistry 100) [("s", badRecord)] "s").1 = false ∧
    (load_session (emptyRegistry 100) [("s", badRecord)] "s").2.active_sessions ≠
      (emptyRegistry 100).active_sessions := by
  decide

/-- C3 as amended.  Whenever `load_session` returns false the metadata map
is untouched, and the active-session map is untouched except in one case:
the record exists, its messages and both timestamps parse, but its
metadata is missing — then the reconstructed window has already been
installed under the session id before the failure. -/
theorem C3_amended (reg : Registry) (st : Storage) (sid : String)
    (h : (load_session reg st sid).1 = false) :
    (load_session reg st sid).2.session_metadata = reg.session_metadata ∧
    ((load_session reg st sid).2.active_sessions = reg.active_sessions ∨
      ∃ data : SessionRecord, st.lookup sid = some data ∧ data.metadata = none ∧
        ∃ msgs ca la, data.messages = some msgs ∧ data.created_at = some ca ∧
          data.last_accessed = some la ∧
          (load_session reg st sid).2.active_sessions =
            dictInsert sid
              { max_history := data.max_history.getD 50, messages := msgs,
                created_at := ca, last_accessed := la } reg.active_sessions) := by
  rcases hst : st.lookup sid with _ | data
  · simp [load_session, hst]
  · rcases hm : data.messages with _ | msgs
    · simp [load_session, hst, hm]
    · rcases hca : data.created_at with _ | ca
      · simp [load_session, hst, hm, hca]
      · rcases hla : data.last_accessed with _ | la
        · simp [load_session, hst, hm, hca, hla]
        · rcases hmd : data.metadata with _ | md
          · constructor
            · simp [load_session, hst, hm, hca, hla, hmd]
            · exact Or.inr ⟨data, rfl, hmd, msgs, ca, la, hm, hca, hla, by
                simp [load_session, hst, hm, hca, hla, hmd]⟩
          · exfalso
            simp [load_session, hst, hm, hca, hla, hmd] at h

/-- Witness for C3 as amended, at the concrete corrupt record. -/
theorem C3_witness :
    (load_session (emptyRegistry 100) [("s", badRecord)] "s").1 = false ∧
    (load_session (emptyRegistry 100) [("s", badRecord)] "s").2.session_metadata =
      (emptyRegistry 100).session_metadata :=
  ⟨by decide, (C3_amended (emptyRegistry 100) [("s", badRecord)] "s" (by decide)).1⟩

/-! ## Claim C9: save/load round trip -/

/-- C9.  Saving an active session and loading it on a freshly constructed
registry (empty maps, any `max_sessions`) backed by the resulting storage
succeeds and reproduces a window with exactly the saved ordered message
list and metadata with exactly the saved message count. -/
theorem C9_roundtrip (reg : Registry) (st : Storage) (sid : String) (m : ℕ)
    (mem : ConversationMemory) (md : SessionMeta)
    (hmem : reg.active_sessions.lookup sid = some mem)
    (hmd : reg.session_metadata.lookup sid = some md) :
    ∃ st', save_session reg st sid = some st' ∧
      (load_session (emptyRegistry m) st' sid).1 = true ∧
      ∃ mem', (load_session (emptyRegistry m) st' sid).2.active_sessions.lookup sid =
          some mem' ∧ mem'.messages = mem.messages ∧
        ∃ md', (load_session (emptyRegistry m) st' sid).2.session_metadata.lookup sid =
            some md' ∧ md'.message_count = md.message_count := by
  refine ⟨dictInsert sid
      { messages := some mem.messages, created_at := some mem.created_at,
        last_accessed := some mem.last_accessed, metadata := some md,
        max_history := none } st, ?_, ?_, ?_⟩
  · simp [save_session, hmem, hmd]
  · simp [load_session, lookup_dictInsert_self]
  · refine ⟨(⟨50, mem.messages, mem.created_at, mem.last_accessed⟩ : ConversationMemory),
      ?_, rfl, md, ?_, rfl⟩
    · simp [load_session, lookup_dictInsert_self]
    · simp [load_session, lookup_dictInsert_self]

/-- Witness for C9 at a concrete one-session registry. -/
theorem C9_witness :
    c9reg.active_sessions.lookup "s" = some c9mem ∧
    c9reg.session_metadata.lookup "s" = some c9meta ∧
    ∃ st', save_session c9reg [] "s" = some st' ∧
      (load_session (emptyRegistry 100) st' "s").1 = true := by
  refine ⟨by decide, by decide, ?_⟩
  obtain ⟨st', h1, h2, -⟩ := C9_roundtrip c9reg [] "s" 100 c9mem c9meta (by decide) (by decide)
  exact ⟨st', h1, h2⟩

/-! ## Claim C8: conversation window capacity -/

/-- C8 counterexample.  A window constructed with `max_history = 0` does
not obey the capacity bound: `messages[-0:]` is the whole list, so after
one append the window holds 1 > 0 turns. -/
theorem C8_counterexample :
    (ConversationMemory.mk0 0 0).max_history = 0 ∧
    ¬ ((((ConversationMemory.mk0 0 0).add_message "user" "T1" 1).messages.length : ℤ) ≤
        ((ConversationMemory.mk0 0 0).add_message "user" "T1" 1).max_history) := by
  decide

theorem pySliceFrom_neg {α : Type} (mh : ℤ) (h : 1 ≤ mh) (l : List α) :
    pySliceFrom (-mh) l = l.drop ((l.length : ℤ) - mh).toNat := by
  rw [pySliceFrom, if_pos (by omega)]
  congr 1
  omega

theorem add_message_messages (w : ConversationMemory) (role content : String)
    (now : ℕ) (h1 : 1 ≤ w.max_history) :
    (w.add_message role content now).messages =
      (w.messages ++ [({ role := role, content := content, timestamp := now } : Message)]).drop
        (((w.messages.length : ℤ) + 1 - w.max_history).toNat) := by
  rw [ConversationMemory.add_message]
  dsimp only
  by_cases hc : w.max_history <
      ((w.messages ++ [({ role := role, content := content, timestamp := now } : Message)]).length : ℤ)
  · rw [if_pos hc, pySliceFrom_neg _ h1]
    congr 1
    simp only [List.length_append, List.length_cons, List.length_nil]
    push_cast
    ring
  · rw [if_neg hc]
    simp only [List.length_append, List.length_cons, List.length_nil] at hc
    have h0 : (((w.messages.length : ℤ) + 1 - w.max_history).toNat) = 0 := by omega
    rw [h0, List.drop_zero]

theorem appendAll_messages (mh : ℤ) (h : 1 ≤ mh) (w : ConversationMemory)
    (hw : w.max_history = mh) (hlen : (w.messages.length : ℤ) ≤ mh)
    (ts : List (String × String × ℕ)) :
    (appendAll w ts).messages =
      (w.messages ++ ts.map mkMsg).drop
        (((w.messages.length : ℤ) + ts.length - mh).toNat) := by
  induction ts generalizing w with
  | nil =>
    simp only [appendAll, List.foldl_nil, List.map_nil, List.append_nil,
      List.length_nil, Nat.cast_zero, add_zero]
    have h0 : (((w.messages.length : ℤ) - mh).toNat) = 0 := by omega
    rw [h0, List.drop_zero]
  | cons t rest ih =>
    have hmax : (w.add_message t.1 t.2.1 t.2.2).max_history = mh := hw
    have hmsg : (w.add_message t.1 t.2.1 t.2.2).messages =
        (w.messages ++ [mkMsg t]).drop (((w.messages.length : ℤ) + 1 - mh).toNat) := by
      rw [add_message_messages w t.1 t.2.1 t.2.2 (hw ▸ h), hw]
      rfl
    have hlen' : ((w.add_message t.1 t.2.1 t.2.2).messages.length : ℤ) ≤ mh := by
      rw [hmsg]
      simp only [List.length_drop, List.length_append, List.length_cons,
        List.length_nil]
      push_cast
      omega
    have hfold : appendAll w (t :: rest) = appendAll (w.add_message t.1 t.2.1 t.2.2) rest := rfl
    rw [hfold, ih _ hmax hlen', hmsg]
    have hle : (((w.messages.length : ℤ) + 1 - mh).toNat) ≤
        (w.messages ++ [mkMsg t]).length := by
      simp only [List.length_append, List.length_cons, List.length_nil]
      omega
    rw [← List.drop_append_of_le_length hle, List.drop_drop, List.append_assoc,
      List.singleton_append]
    congr 1
    simp only [List.length_drop, List.length_append, List.length_cons,
      List.length_nil, List.length_map]
    push_cast
    omega

/-- C8 as amended.  For every window created with `max_history ≥ 1` and
every sequence of appended turns, the window holds exactly the most recent
`max_history` turns of the appended sequence (all of them while they fit),
and in particular never more than `max_history`.  (`max_history = 0` is
excluded: there the `[-0:]` slice keeps everything, see the
counterexample.) -/
theorem C8_amended (mh : ℤ) (h : 1 ≤ mh) (now0 : ℕ)
    (ts : List (String × String × ℕ)) :
    (appendAll (ConversationMemory.mk0 mh now0) ts).messages =
      (ts.map mkMsg).drop (((ts.length : ℤ) - mh).toNat) ∧
    ((appendAll (ConversationMemory.mk0 mh now0) ts).messages.length : ℤ) ≤ mh := by
  have h1 := appendAll_messages mh h (ConversationMemory.mk0 mh now0) rfl
    (by simp only [ConversationMemory.mk0, List.length_nil, Nat.cast_zero]; omega) ts
  have h3 : (ConversationMemory.mk0 mh now0).messages = ([] : List Message) := rfl
  rw [h3, List.nil_append] at h1
  simp only [List.length_nil, Nat.cast_zero, zero_add] at h1
  refine ⟨h1, ?_⟩
  rw [h1]
  simp only [List.length_drop, List.length_map]
  omega

/-- Witness for C8 as amended: `max_history = 3`, appending T1..T4 leaves
exactly [T2, T3, T4]. -/
theorem C8_witness :
    (1 : ℤ) ≤ 3 ∧
    (appendAll (ConversationMemory.mk0 3 0)
        [("user", "T1", 1), ("user", "T2", 2), ("user", "T3", 3),
         ("user", "T4", 4)]).messages =
      [mkMsg ("user", "T2", 2), mkMsg ("user", "T3", 3), mkMsg ("user", "T4", 4)] := by
  refine ⟨by norm_num, ?_⟩
  rw [(C8_amended 3 (by norm_num) 0
    [("user", "T1", 1), ("user", "T2", 2), ("user", "T3", 3), ("user", "T4", 4)]).1]
  rfl

/-! ## Generic facts about the stable sorts used by the code -/

theorem pairwise_insertionSortDesc {α β : Type} [LinearOrder β] (key : α → β)
    (l : List α) :
    (List.insertionSort (fun a b => key b ≤ key a) l).Pairwise
      (fun a b => key b ≤ key a) := by
  letI : IsTotal α (fun a b => key b ≤ key a) :=
    ⟨fun a b => le_total (key b) (key a)⟩
  letI : IsTrans α (fun a b => key b ≤ key a) :=
    ⟨fun _ _ _ h1 h2 => le_trans h2 h1⟩
  exact List.sorted_insertionSort _ l

theorem pairwise_insertionSortAsc {α β : Type} [LinearOrder β] (key : α → β)
    (l : List α) :
    (List.insertionSort (fun a b => key a ≤ key b) l).Pairwise
      (fun a b => key a ≤ key b) := by
  letI : IsTotal α (fun a b => key a ≤ key b) :=
    ⟨fun a b => le_total (key a) (key b)⟩
  letI : IsTrans α (fun a b => key a ≤ key b) :=
    ⟨fun _ _ _ h1 h2 => le_trans h1 h2⟩
  exact List.sorted_insertionSort _ l

theorem filter_orderedInsertDesc {α β : Type} [LinearOrder β] (key : α → β)
    (q : β) (a : α) (l : List α) :
    (List.orderedInsert (fun x y => key y ≤ key x) a l).filter
        (fun x => key x = q) =
      if key a = q then a :: l.filter (fun x => key x = q)
      else l.filter (fun x => key x = q) := by
  induction l with
  | nil =>
    by_cases h : key a = q <;> simp [List.orderedInsert, h]
  | cons b t ih =>
    rw [List.orderedInsert]
    by_cases hab : key b ≤ key a
    · rw [if_pos hab]
      by_cases h : key a = q <;> simp [List.filter_cons, h]
    · rw [if_neg hab]
      have hba : key a < key b := lt_of_not_le hab
      by_cases h : key a = q
      · have hbq : ¬ (key b = q) := by
          rw [← h]
          exact ne_of_gt hba
        simp [List.filter_cons, h, hbq, ih]
      · by_cases hbq : key b = q <;> simp [List.filter_cons, h, hbq, ih]

theorem filter_insertionSortDesc {α β : Type} [LinearOrder β] (key : α → β)
    (q : β) (l : List α) :
    (List.insertionSort (fun x y => key y ≤ key x) l).filter
        (fun x => key x = q) = l.filter (fun x => key x = q) := by
  induction l with
  | nil => rfl
  | cons a t ih =>
    rw [List.insertionSort, filter_orderedInsertDesc]
    by_cases h : key a = q <;> simp [List.filter_cons, h, ih]

theorem filter_take_eq_take_filter {α : Type} (p : α → Bool) (k : ℕ) (l : List α) :
    ∃ n, (l.take k).filter p = (l.filter p).take n := by
  induction l generalizing k with
  | nil => exact ⟨0, by simp⟩
  | cons a t ih =>
    cases k with
    | zero => exact ⟨0, by simp⟩
    | succ k =>
      obtain ⟨n, hn⟩ := ih k
      by_cases h : p a
      · exact ⟨n + 1, by simp [List.take_succ_cons, List.filter_cons, h, hn]⟩
      · exact ⟨n, by simp [List.take_succ_cons, List.filter_cons, h, hn]⟩

theorem pairwise_take_drop {α : Type} {r : α → α → Prop} {l : List α}
    (hp : l.Pairwise r) (k : ℕ) :
    ∀ a ∈ l.take k, ∀ b ∈ l.drop k, r a b := by
  rw [← List.take_append_drop k l, List.pairwise_append] at hp
  exact hp.2.2

theorem mem_drop_of_not_mem_take {α : Type} {l : List α} {k : ℕ} {b : α}
    (hb : b ∈ l) (hnt : b ∉ l.take k) : b ∈ l.drop k := by
  rw [← List.take_append_drop k l, List.mem_append] at hb
  exact hb.resolve_left hnt

/-! ## Claim C6: keyword similarity search -/

theorem mem_similarCandidates {s : MemoryStore} {query : String}
    {category : Option MemoryCategory} {p : Memory × ℕ}
    (hp : p ∈ similarCandidates s query category) :
    (∃ c ∈ categoriesOf category, p.1 ∈ s.memories c) ∧
      p.2 = overlap query p.1.content ∧ 2 ≤ overlap query p.1.content := by
  rw [similarCandidates, List.mem_flatMap] at hp
  obtain ⟨c, hc, hp⟩ := hp
  rw [List.mem_filterMap] at hp
  obtain ⟨m, hm, hfm⟩ := hp
  by_cases h2 : 2 ≤ overlap query m.content
  · rw [if_pos h2] at hfm
    cases hfm
    exact ⟨⟨c, hc, hm⟩, rfl, h2⟩
  · rw [if_neg h2] at hfm
    cases hfm

/-- C6.  `search_similar` returns only memories of the scanned categories
whose lowercase-whitespace token-set overlap with the query is at least 2,
in non-increasing overlap order, returning `min limit (number of matches)`
entries, and mutates nothing in the store (in particular no access
marking). -/
theorem C6_search_similar (s : MemoryStore) (query : String)
    (category : Option MemoryCategory) (limit : ℕ) :
    (∀ m ∈ (search_similar s query category limit).1,
       2 ≤ overlap query m.content ∧ ∃ c ∈ categoriesOf category, m ∈ s.memories c) ∧
    (search_similar s query category limit).1.Pairwise
      (fun a b => overlap query b.content ≤ overlap query a.content) ∧
    (search_similar s query category limit).1.length =
      min limit (similarCandidates s query category).length ∧
    (search_similar s query category limit).2 = s := by
  have hperm : List.Perm
      (List.insertionSort (fun a b => b.2 ≤ a.2) (similarCandidates s query category))
      (similarCandidates s query category) :=
    List.perm_insertionSort _ _
  have hres : (search_similar s query category limit).1 =
      ((List.insertionSort (fun a b => b.2 ≤ a.2)
        (similarCandidates s query category)).take limit).map Prod.fst := rfl
  refine ⟨?_, ?_, ?_, rfl⟩
  · intro m hm
    rw [hres] at hm
    simp only [List.mem_map] at hm
    obtain ⟨p, hp, rfl⟩ := hm
    have hp' : p ∈ similarCandidates s query category :=
      hperm.mem_iff.mp ((List.take_sublist _ _).subset hp)
    obtain ⟨hc, _, h2⟩ := mem_similarCandidates hp'
    exact ⟨h2, hc⟩
  · rw [hres, List.pairwise_map]
    have hsorted : (List.insertionSort (fun a b => b.2 ≤ a.2)
        (similarCandidates s query category)).Pairwise (fun a b => b.2 ≤ a.2) :=
      pairwise_insertionSortDesc Prod.snd _
    have htake := hsorted.sublist (List.take_sublist limit _)
    refine htake.imp_of_mem ?_
    intro a b ha hb hle
    have ha' : a ∈ similarCandidates s query category :=
      hperm.mem_iff.mp ((List.take_sublist _ _).subset ha)
    have hb' : b ∈ similarCandidates s query category :=
      hperm.mem_iff.mp ((List.take_sublist _ _).subset hb)
    have h1 := (mem_similarCandidates ha').2.1
    have h2 := (mem_similarCandidates hb').2.1
    rw [← h1, ← h2]
    exact hle
  · rw [hres, List.length_map, List.length_take, hperm.length_eq]

/-- Witness for C6 at a concrete store: the memory sharing the two tokens
"cache" and "performance" with the query is returned and its overlap is at
least 2. -/
theorem C6_witness :
    c6Memory ∈ (search_similar c6store "cache performance tricks" none 5).1 ∧
    2 ≤ overlap "cache performance tricks" c6Memory.content := by
  have hm : c6Memory ∈ (search_similar c6store "cache performance tricks" none 5).1 := by
    decide
  exact ⟨hm,
    ((C6_search_similar c6store "cache performance tricks" none 5).1 c6Memory hm).1⟩

/-! ## Claims C4 and C5: memory querying -/

theorem mem_candidateRefs {s : MemoryStore} {category : Option MemoryCategory}
    {tags : List String} {min_importance : ℚ} {r : MemoryCategory × ℕ × Memory}
    (hr : r ∈ candidateRefs s category tags min_importance) :
    (s.memories r.1)[r.2.1]? = some r.2.2 ∧
      queryKeep tags min_importance r.2.2 = true ∧ r.1 ∈ categoriesOf category := by
  rw [candidateRefs, List.mem_flatMap] at hr
  obtain ⟨c, hc, hr⟩ := hr
  rw [List.mem_map] at hr
  obtain ⟨p, hp, rfl⟩ := hr
  rw [List.mem_filter] at hp
  obtain ⟨hpe, hpk⟩ := hp
  obtain ⟨i, m⟩ := p
  have hgm : (s.memories c)[i]? = some m := List.mk_mem_enum_iff_getElem?.mp hpe
  exact ⟨hgm, hpk, hc⟩

theorem nodup_categoriesOf (category : Option MemoryCategory) :
    (categoriesOf category).Nodup := by
  cases category with
  | none => decide
  | some c => simp [categoriesOf]

theorem nodup_candidateRefs_keys (s : MemoryStore)
    (category : Option MemoryCategory) (tags : List String)
    (min_importance : ℚ) :
    ((candidateRefs s category tags min_importance).map refKey).Nodup := by
  rw [candidateRefs, List.map_flatMap]
  rw [List.nodup_flatMap]
  constructor
  · intro c _
    rw [List.map_map]
    have : (refKey ∘ fun p : ℕ × Memory => (c, p.1, p.2)) =
        (fun i => (c, i)) ∘ Prod.fst := rfl
    rw [this, ← List.map_map]
    refine List.Nodup.map ?_ ?_
    · intro a b hab
      simpa using hab
    · have hsub : List.Sublist
          (((s.memories c).enum.filter fun p => queryKeep tags min_importance p.2).map
            Prod.fst)
          ((s.memories c).enum.map Prod.fst) :=
        (List.filter_sublist _).map Prod.fst
      exact (List.nodup_enum_map_fst _).sublist hsub
  · refine (nodup_categoriesOf category).imp ?_
    intro c c' hcc
    rw [Function.onFun]
    rw [List.disjoint_left]
    intro x hx hx'
    rw [List.map_map, List.mem_map] at hx hx'
    obtain ⟨p, -, rfl⟩ := hx
    obtain ⟨p', -, heq⟩ := hx'
    exact hcc (congrArg Prod.fst heq).symm

theorem perm_returned_keys (s : MemoryStore) (now : ℤ)
    (category : Option MemoryCategory) (tags : List String)
    (min_importance : ℚ) :
    List.Perm
      ((List.insertionSort (fun a b => score now b.2.2 ≤ score now a.2.2)
        (candidateRefs s category tags min_importance)).map refKey)
      ((candidateRefs s category tags min_importance).map refKey) :=
  (List.perm_insertionSort _ _).map refKey

theorem nodup_returnedRefs_keys (s : MemoryStore) (now : ℤ)
    (category : Option MemoryCategory) (tags : List String)
    (min_importance : ℚ) (limit : ℕ) :
    ((returnedRefs s now category tags min_importance limit).map refKey).Nodup := by
  have hsorted : ((List.insertionSort (fun a b => score now b.2.2 ≤ score now a.2.2)
      (candidateRefs s category tags min_importance)).map refKey).Nodup :=
    (perm_returned_keys s now category tags min_importance).nodup_iff.mpr
      (nodup_candidateRefs_keys s category tags min_importance)
  exact hsorted.sublist ((List.take_sublist _ _).map refKey)

theorem mem_returnedRefs {s : MemoryStore} {now : ℤ}
    {category : Option MemoryCategory} {tags : List String}
    {min_importance : ℚ} {limit : ℕ} {r : MemoryCategory × ℕ × Memory}
    (hr : r ∈ returnedRefs s now category tags min_importance limit) :
    r ∈ candidateRefs s category tags min_importance :=
  (List.perm_insertionSort _ _).subset ((List.take_sublist _ _).subset hr)

theorem listModify_getElem?_ne {α : Type} (f : α → α) (i j : ℕ) (l : List α)
    (h : j ≠ i) : (listModify f i l)[j]? = l[j]? := by
  induction l generalizing i j with
  | nil => cases i <;> rfl
  | cons a t ih =>
    cases i with
    | zero =>
      cases j with
      | zero => exact absurd rfl h
      | succ j => simp [listModify]
    | succ i =>
      cases j with
      | zero => simp [listModify]
      | succ j =>
        rw [listModify]
        rw [List.getElem?_cons_succ, List.getElem?_cons_succ]
        exact ih i j (fun he => h (by rw [he]))

theorem listModify_getElem?_self {α : Type} (f : α → α) (i : ℕ) (l : List α) :
    (listModify f i l)[i]? = (l[i]?).map f := by
  induction l generalizing i with
  | nil => cases i <;> rfl
  | cons a t ih =>
    cases i with
    | zero => simp [listModify]
    | succ i =>
      rw [listModify, List.getElem?_cons_succ, List.getElem?_cons_succ]
      exact ih i

theorem storeModify_getElem?_ne (s : MemoryStore) (c c' : MemoryCategory)
    (i i' : ℕ) (f : Memory → Memory) (h : (c', i') ≠ (c, i)) :
    ((storeModify s c i f).memories c')[i']? = (s.memories c')[i']? := by
  rw [storeModify]
  dsimp only
  by_cases hc : c' = c
  · subst hc
    rw [if_pos rfl]
    have hi : i' ≠ i := fun he => h (by rw [he])
    exact listModify_getElem?_ne f i i' _ hi
  · rw [if_neg hc]

theorem fold_storeModify_getElem?_ne
    (f : Memory → Memory) (c : MemoryCategory) (i : ℕ)
    (R : List (MemoryCategory × ℕ × Memory)) (s : MemoryStore)
    (h : (c, i) ∉ R.map refKey) :
    ((R.foldl (fun st x => storeModify st x.1 x.2.1 f) s).memories c)[i]? =
      (s.memories c)[i]? := by
  induction R generalizing s with
  | nil => rfl
  | cons r R ih =>
    rw [List.map_cons, List.mem_cons] at h
    push_neg at h
    rw [List.foldl_cons, ih _ h.2]
    exact storeModify_getElem?_ne s r.1 c r.2.1 i f h.1

theorem fold_storeModify_getElem?_mem
    (f : Memory → Memory) (R : List (MemoryCategory × ℕ × Memory))
    (s : MemoryStore) (hnod : (R.map refKey).Nodup)
    (r : MemoryCategory × ℕ × Memory) (hr : r ∈ R) :
    ((R.foldl (fun st x => storeModify st x.1 x.2.1 f) s).memories r.1)[r.2.1]? =
      ((s.memories r.1)[r.2.1]?).map f := by
  induction R generalizing s with
  | nil => cases hr
  | cons r0 R ih =>
    rw [List.map_cons, List.nodup_cons] at hnod
    rw [List.foldl_cons]
    rcases List.mem_cons.mp hr with rfl | hmem
    · rw [fold_storeModify_getElem?_ne f r.1 r.2.1 R _ hnod.1]
      rw [storeModify]
      dsimp only
      rw [if_pos rfl]
      exact listModify_getElem?_self f r.2.1 _
    · rw [ih _ hnod.2 hmem]
      have hkey : refKey r ≠ refKey r0 := by
        intro he
        exact hnod.1 (he ▸ List.mem_map_of_mem refKey hmem)
      rw [storeModify_getElem?_ne s r0.1 r.1 r0.2.1 r.2.1 f hkey]

/-- C4 as amended.  `query_memory` returns exactly the accessed copies of
the selected candidate positions; every selected candidate passes the
importance, tag and category filters; the returned list is ordered by
decayed-importance score non-increasing; within every score class the
selection is an initial segment of the candidate traversal (categories in
declaration order, insertion order inside each category) — the stable
tie-break is this traversal order, not global insertion order across
categories; the result holds `min limit (number of matches)` entries; and
everything scoring strictly higher than a returned entry is returned. -/
theorem C4_amended (s : MemoryStore) (now : ℤ) (category : Option MemoryCategory)
    (tags : List String) (min_importance : ℚ) (limit : ℕ) :
    (query_memory s now category tags min_importance limit).1 =
      (returnedRefs s now category tags min_importance limit).map
        (fun r => Memory.access now r.2.2) ∧
    (∀ r ∈ returnedRefs s now category tags min_importance limit,
       (s.memories r.1)[r.2.1]? = some r.2.2 ∧
       queryKeep tags min_importance r.2.2 = true ∧
       r.1 ∈ categoriesOf category) ∧
    (query_memory s now category tags min_importance limit).1.Pairwise
      (fun a b => score now b ≤ score now a) ∧
    (∀ q : ℚ, ∃ n,
       (returnedRefs s now category tags min_importance limit).filter
           (fun r => score now r.2.2 = q) =
         ((candidateRefs s category tags min_importance).filter
           (fun r => score now r.2.2 = q)).take n) ∧
    (query_memory s now category tags min_importance limit).1.length =
      min limit (candidateRefs s category tags min_importance).length ∧
    (∀ a ∈ returnedRefs s now category tags min_importance limit,
       ∀ b ∈ candidateRefs s category tags min_importance,
         score now a.2.2 < score now b.2.2 →
           b ∈ returnedRefs s now category tags min_importance limit) := by
  have hsorted : (List.insertionSort (fun a b => score now b.2.2 ≤ score now a.2.2)
      (candidateRefs s category tags min_importance)).Pairwise
        (fun a b => score now b.2.2 ≤ score now a.2.2) :=
    pairwise_insertionSortDesc (fun r : MemoryCategory × ℕ × Memory => score now r.2.2) _
  refine ⟨rfl, ?_, ?_, ?_, ?_, ?_⟩
  · intro r hr
    exact mem_candidateRefs (mem_returnedRefs hr)
  · have hres : (query_memory s now category tags min_importance limit).1 =
        (returnedRefs s now category tags min_importance limit).map
          (fun r => Memory.access now r.2.2) := rfl
    rw [hres, List.pairwise_map]
    exact hsorted.sublist (List.take_sublist _ _)
  · intro q
    obtain ⟨n, hn⟩ := filter_take_eq_take_filter
      (fun r : MemoryCategory × ℕ × Memory => decide (score now r.2.2 = q)) limit
      (List.insertionSort (fun a b => score now b.2.2 ≤ score now a.2.2)
        (candidateRefs s category tags min_importance))
    refine ⟨n, ?_⟩
    rw [returnedRefs, hn,
      filter_insertionSortDesc (fun r : MemoryCategory × ℕ × Memory => score now r.2.2) q]
  · have hres : (query_memory s now category tags min_importance limit).1 =
        (returnedRefs s now category tags min_importance limit).map
          (fun r => Memory.access now r.2.2) := rfl
    rw [hres, List.length_map, returnedRefs, List.length_take,
      (List.perm_insertionSort _ _).length_eq]
  · intro a ha b hb hab
    by_contra hbr
    have hbs : b ∈ List.insertionSort (fun a b => score now b.2.2 ≤ score now a.2.2)
        (candidateRefs s category tags min_importance) :=
      (List.perm_insertionSort _ _).mem_iff.mpr hb
    have hbd := mem_drop_of_not_mem_take hbs hbr
    exact absurd (pairwise_take_drop hsorted limit a ha b hbd) (not_le.mpr hab)

/-- Witness for C4 as amended, at a concrete one-memory store: the single
candidate is returned and passes the filters. -/
theorem C4_witness :
    (MemoryCategory.general, 0, c6Memory) ∈ returnedRefs c6store 0 none [] 0 10 ∧
    (c6store.memories .general)[0]? = some c6Memory ∧
    queryKeep [] 0 c6Memory = true := by
  have hm : (MemoryCategory.general, 0, c6Memory) ∈ returnedRefs c6store 0 none [] 0 10 := by
    decide
  obtain ⟨h1, h2, -⟩ := (C4_amended c6store 0 none [] 0 10).2.1 _ hm
  exact ⟨hm, h1, h2⟩

/-- C4 counterexample.  Build the store by `add_memory`("alpha", general)
followed by `add_memory`("beta", success_patterns), both with the same
importance and creation time, so their scores tie (both equal 1).  The
query returns ["beta", "alpha"] — the reverse of insertion order — because
the stable sort preserves the category-scan order, not the order the
memories were added in.  This refutes "ties broken by stable retention of
insertion order". -/
theorem C4_counterexample :
    (c4TieStore.map fun s => (query_memory s 0 none [] 0 10).1.map Memory.content) =
      some ["beta", "alpha"] ∧
    (c4TieStore.map fun s => (query_memory s 0 none [] 0 10).1.map fun m => score 0 m) =
      some [1, 1] := by
  constructor <;>
  · simp only [c4TieStore, add_memory, mkMemory, emptyStore, pruneMemories, pruneKeep,
      query_memory, returnedRefs, candidateRefs, categoriesOf, allCategories, queryKeep,
      score, Memory.access, List.insertionSort, List.orderedInsert, Option.bind, Option.map,
      List.flatMap, List.enum, List.filter, List.map, List.take, MemoryCategory.value]
    norm_num

/-- C5.  Exactly the returned candidate positions are mutated: each gets
its access count incremented by one and its last-accessed time set to the
query time, all other fields verbatim; every other position of every
category — matched-but-beyond-limit candidates included — is unchanged;
and the returned list consists of exactly the updated entries. -/
theorem C5_frame (s : MemoryStore) (now : ℤ) (category : Option MemoryCategory)
    (tags : List String) (min_importance : ℚ) (limit : ℕ) :
    (∀ c i, (c, i) ∉ (returnedRefs s now category tags min_importance limit).map refKey →
       ((query_memory s now category tags min_importance limit).2.memories c)[i]? =
         (s.memories c)[i]?) ∧
    (∀ r ∈ returnedRefs s now category tags min_importance limit,
       (s.memories r.1)[r.2.1]? = some r.2.2 ∧
       ((query_memory s now category tags min_importance limit).2.memories r.1)[r.2.1]? =
         some { r.2.2 with access_count := r.2.2.access_count + 1, last_accessed := now }) ∧
    (query_memory s now category tags min_importance limit).1 =
      (returnedRefs s now category tags min_importance limit).map
        (fun r => { r.2.2 with access_count := r.2.2.access_count + 1, last_accessed := now }) := by
  have hst : (query_memory s now category tags min_importance limit).2 =
      (returnedRefs s now category tags min_importance limit).foldl
        (fun st r => storeModify st r.1 r.2.1 (Memory.access now)) s := rfl
  refine ⟨?_, ?_, rfl⟩
  · intro c i hni
    rw [hst]
    exact fold_storeModify_getElem?_ne (Memory.access now) c i _ s hni
  · intro r hr
    have horig := (mem_candidateRefs (mem_returnedRefs hr)).1
    refine ⟨horig, ?_⟩
    rw [hst, fold_storeModify_getElem?_mem (Memory.access now) _ s
      (nodup_returnedRefs_keys s now category tags min_importance limit) r hr, horig]
    rfl

/-- Witness for C5 at a concrete one-memory store: the single returned
entry has its access count bumped and last-accessed refreshed in the
post-query store. -/
theorem C5_witness :
    (MemoryCategory.general, 0, c6Memory) ∈ returnedRefs c6store 0 none [] 0 10 ∧
    ((query_memory c6store 0 none [] 0 10).2.memories .general)[0]? =
      some { c6Memory with access_count := c6Memory.access_count + 1, last_accessed := 0 } := by
  have hm : (MemoryCategory.general, 0, c6Memory) ∈ returnedRefs c6store 0 none [] 0 10 := by
    decide
  exact ⟨hm, ((C5_frame c6store 0 none [] 0 10).2.1 _ hm).2⟩

/-! ## Claim C1: session eviction -/

theorem dictInsert_of_not_mem {β : Type} (k : String) (v : β)
    (l : List (String × β)) (h : k ∉ l.map Prod.fst) :
    dictInsert k v l = l ++ [(k, v)] := by
  induction l with
  | nil => rfl
  | cons p t ih =>
    rw [List.map_cons, List.mem_cons] at h
    push_neg at h
    rw [dictInsert]
    rw [if_neg (fun he => h.1 he.symm), ih h.2]
    rfl

theorem lookup_eq_none_iff {β : Type} (k : String) (l : List (String × β)) :
    l.lookup k = none ↔ k ∉ l.map Prod.fst := by
  induction l with
  | nil => simp [List.lookup]
  | cons p t ih =>
    obtain ⟨k', v'⟩ := p
    by_cases h : k = k'
    · subst h
      simp [List.lookup]
    · simp [List.lookup, beq_false_of_ne h, ih, h]

theorem lookup_isSome_iff {β : Type} (k : String) (l : List (String × β)) :
    (l.lookup k).isSome = true ↔ k ∈ l.map Prod.fst := by
  rcases hl : l.lookup k with _ | v
  · simp [(lookup_eq_none_iff k l).mp hl]
  · have : k ∈ l.map Prod.fst := by
      by_contra hk
      rw [← lookup_eq_none_iff k l] at hk
      rw [hk] at hl
      cases hl
    simp [this]

theorem map_fst_filter_key {β : Type} (q : String → Bool) (l : List (String × β)) :
    (l.filter (fun p => q p.1)).map Prod.fst = (l.map Prod.fst).filter q := by
  induction l with
  | nil => rfl
  | cons p t ih =>
    by_cases h : q p.1 <;> simp [List.filter_cons, h, ih]

theorem length_filter_add_length_filter_not {γ : Type} (l : List γ) (p : γ → Bool) :
    (l.filter p).length + (l.filter (fun a => ! p a)).length = l.length := by
  induction l with
  | nil => rfl
  | cons a t ih =>
    by_cases h : p a <;> simp [List.filter_cons, h, ← ih] <;> omega

theorem length_filter_key_mem {β : Type} (l : List (String × β)) (ids : List String)
    (hl : (l.map Prod.fst).Nodup) (hids : ids.Nodup)
    (hsub : ∀ k ∈ ids, k ∈ l.map Prod.fst) :
    (l.filter (fun p => p.1 ∈ ids)).length = ids.length := by
  have hmap := map_fst_filter_key (fun k => k ∈ ids) l
  have hperm : List.Perm ((l.map Prod.fst).filter (fun k => k ∈ ids)) ids := by
    rw [List.perm_ext_iff_of_nodup (hl.filter _) hids]
    intro a
    simp only [List.mem_filter, decide_eq_true_eq]
    exact ⟨fun h => h.2, fun h => ⟨hsub a h, h⟩⟩
  have : ((l.filter (fun p => p.1 ∈ ids)).map Prod.fst).length = ids.length := by
    rw [hmap, hperm.length_eq]
  simpa using this

theorem length_filter_key_not_mem {β : Type} (l : List (String × β))
    (ids : List String) (hl : (l.map Prod.fst).Nodup) (hids : ids.Nodup)
    (hsub : ∀ k ∈ ids, k ∈ l.map Prod.fst) :
    (l.filter (fun p => p.1 ∉ ids)).length = l.length - ids.length := by
  have hpart := length_filter_add_length_filter_not l (fun p => p.1 ∈ ids)
  have hmem := length_filter_key_mem l ids hl hids hsub
  have hcongr : l.filter (fun p => p.1 ∉ ids) =
      l.filter (fun p => ! (p.1 ∈ ids : Bool)) := by
    refine List.filter_congr ?_
    intro a _
    simp
  rw [hcongr]
  omega

theorem lookup_filter_key_not_mem {β : Type} (l : List (String × β))
    (ids : List String) (k : String) (hk : k ∉ ids) :
    (l.filter (fun p => p.1 ∉ ids)).lookup k = l.lookup k := by
  induction l with
  | nil => rfl
  | cons p t ih =>
    by_cases hp : p.1 ∈ ids
    · have hne : (k == p.1) = false := by
        refine beq_false_of_ne ?_
        intro he
        exact hk (he ▸ hp)
      rw [List.filter_cons, if_neg (by simpa using hp)]
      rw [ih]
      obtain ⟨k', v'⟩ := p
      rw [List.lookup]
      rw [hne]
    · rw [List.filter_cons, if_pos (by simpa using hp)]
      obtain ⟨k', v'⟩ := p
      by_cases he : k = k'
      · subst he
        simp [List.lookup]
      · rw [List.lookup, List.lookup]
        rw [beq_false_of_ne he]
        exact ih

theorem lookup_filter_key_mem {β : Type} (l : List (String × β))
    (ids : List String) (k : String) (hk : k ∈ ids) :
    (l.filter (fun p => p.1 ∉ ids)).lookup k = none := by
  rw [lookup_eq_none_iff, map_fst_filter_key (fun k => decide (k ∉ ids)) l]
  intro hmem
  rw [List.mem_filter] at hmem
  have := hmem.2
  simp only [decide_eq_true_eq] at this
  exact this hk

theorem entry_unique_of_nodup_keys {β : Type} {l : List (String × β)}
    (hl : (l.map Prod.fst).Nodup) {a b : String × β} (ha : a ∈ l) (hb : b ∈ l)
    (hab : a.1 = b.1) : a = b := by
  induction l with
  | nil => cases ha
  | cons p t ih =>
    rw [List.map_cons, List.nodup_cons] at hl
    rcases List.mem_cons.mp ha with rfl | ha' <;>
      rcases List.mem_cons.mp hb with rfl | hb'
    · rfl
    · exact absurd (hab ▸ List.mem_map_of_mem Prod.fst hb') hl.1
    · exact absurd (hab ▸ List.mem_map_of_mem Prod.fst ha') hl.1
    · exact ih hl.2 ha' hb'

theorem fold_delete_spec (D : List (String × SessionMeta)) (reg : Registry)
    (st : Storage)
    (hsub : ∀ p ∈ D, p.1 ∈ reg.active_sessions.map Prod.fst)
    (hsync : reg.active_sessions.map Prod.fst = reg.session_metadata.map Prod.fst)
    (hnod : (D.map Prod.fst).Nodup) :
    (D.foldl (fun acc p => delete_session acc.1 acc.2 p.1) (reg, st)).1.active_sessions =
        reg.active_sessions.filter (fun p => p.1 ∉ D.map Prod.fst) ∧
    (D.foldl (fun acc p => delete_session acc.1 acc.2 p.1) (reg, st)).1.session_metadata =
        reg.session_metadata.filter (fun p => p.1 ∉ D.map Prod.fst) ∧
    (D.foldl (fun acc p => delete_session acc.1 acc.2 p.1) (reg, st)).1.max_sessions =
        reg.max_sessions ∧
    (D.foldl (fun acc p => delete_session acc.1 acc.2 p.1) (reg, st)).2 =
        st.filter (fun p => p.1 ∉ D.map Prod.fst) := by
  induction D generalizing reg st with
  | nil =>
    refine ⟨?_, ?_, rfl, ?_⟩ <;> simp
  | cons d D ih =>
    have hd1 : d.1 ∈ reg.active_sessions.map Prod.fst := hsub d (List.mem_cons_self d D)
    have hsome : (reg.active_sessions.lookup d.1).isSome = true :=
      (lookup_isSome_iff d.1 reg.active_sessions).mpr hd1
    rw [List.map_cons, List.nodup_cons] at hnod
    have hstep : delete_session reg st d.1 =
        ({ reg with
           active_sessions := reg.active_sessions.filter fun p => p.1 ≠ d.1
           session_metadata := reg.session_metadata.filter fun p => p.1 ≠ d.1 },
         st.filter fun p => p.1 ≠ d.1) := by
      rw [delete_session, if_pos hsome]
      rfl
    have hsub' : ∀ p ∈ D,
        p.1 ∈ (reg.active_sessions.filter fun p => p.1 ≠ d.1).map Prod.fst := by
      intro p hp
      rw [map_fst_filter_key (fun k => k ≠ d.1) reg.active_sessions, List.mem_filter]
      refine ⟨hsub p (List.mem_cons_of_mem d hp), ?_⟩
      simp only [decide_eq_true_eq]
      intro he
      exact hnod.1 (he ▸ List.mem_map_of_mem Prod.fst hp)
    have hsync' : (reg.active_sessions.filter fun p => p.1 ≠ d.1).map Prod.fst =
        (reg.session_metadata.filter fun p => p.1 ≠ d.1).map Prod.fst := by
      rw [map_fst_filter_key (fun k => k ≠ d.1), map_fst_filter_key (fun k => k ≠ d.1),
        hsync]
    have hfold : (d :: D).foldl (fun acc p => delete_session acc.1 acc.2 p.1) (reg, st) =
        D.foldl (fun acc p => delete_session acc.1 acc.2 p.1)
          ({ reg with
             active_sessions := reg.active_sessions.filter fun p => p.1 ≠ d.1
             session_metadata := reg.session_metadata.filter fun p => p.1 ≠ d.1 },
           st.filter fun p => p.1 ≠ d.1) := by
      rw [List.foldl_cons, hstep]
    obtain ⟨ih1, ih2, ih3, ih4⟩ := ih
      ({ reg with
         active_sessions := reg.active_sessions.filter fun p => p.1 ≠ d.1
         session_metadata := reg.session_metadata.filter fun p => p.1 ≠ d.1 })
      (st.filter fun p => p.1 ≠ d.1) hsub' hsync' hnod.2
    have hpred : ∀ {β : Type} (l : List (String × β)),
        ((l.filter fun p => p.1 ≠ d.1).filter fun p => p.1 ∉ D.map Prod.fst) =
          l.filter fun p => p.1 ∉ (d :: D).map Prod.fst := by
      intro β l
      rw [List.filter_filter]
      refine List.filter_congr ?_
      intro a _
      by_cases h1 : a.1 = d.1 <;> by_cases h2 : a.1 ∈ D.map Prod.fst <;>
        simp [h1, h2]
    refine ⟨?_, ?_, ?_, ?_⟩
    · rw [hfold, ih1]
      exact hpred reg.active_sessions
    · rw [hfold, ih2]
      exact hpred reg.session_metadata
    · rw [hfold, ih3]
    · rw [hfold, ih4]
      exact hpred st

/-- C1 as amended.  When a successful `create_session` pushes the active
count above `max_sessions`, the cleanup deletes the
`count - max_sessions + 1` least-recently-accessed sessions in one batch
(sorted by last-accessed ascending), leaving `max_sessions - 1` active
sessions — one fewer than the claimed bound: every evicted session is
gone from the active map, the metadata map and the persisted storage, is
no more recently accessed than any survivor, and no other storage entry
is touched.  In the `max_sessions = 2`, S1/S2/S3 example only S3 remains. -/
theorem C1_amended (reg : Registry) (st : Storage) (sid0 : Option String)
    (mh : ℤ) (now : ℕ) (sid : String) (reg2 : Registry) (st2 : Storage)
    (hkeys : reg.active_sessions.map Prod.fst = reg.session_metadata.map Prod.fst)
    (hnod : (reg.session_metadata.map Prod.fst).Nodup)
    (hcreate : create_session reg st sid0 mh now = some (sid, reg2, st2))
    (hover : reg.max_sessions < reg.active_sessions.length + 1) :
    reg2.active_sessions.length = reg.max_sessions - 1 ∧
    reg2.active_sessions.map Prod.fst = reg2.session_metadata.map Prod.fst ∧
    List.Sublist reg2.session_metadata
      (reg.session_metadata ++
        [(sid, ({ created_at := now, last_accessed := now, message_count := 0,
                  max_history := mh } : SessionMeta))]) ∧
    (∀ q ∈ reg.session_metadata ++
        [(sid, ({ created_at := now, last_accessed := now, message_count := 0,
                  max_history := mh } : SessionMeta))],
       q.1 ∉ reg2.session_metadata.map Prod.fst →
         reg2.active_sessions.lookup q.1 = none ∧
         st2.lookup q.1 = none ∧
         ∀ p ∈ reg2.session_metadata, q.2.last_accessed ≤ p.2.last_accessed) ∧
    (∀ k, k ∈ reg2.session_metadata.map Prod.fst ∨
        k ∉ (reg.session_metadata ++
          [(sid, ({ created_at := now, last_accessed := now, message_count := 0,
                    max_history := mh } : SessionMeta))]).map Prod.fst →
      st2.lookup k = st.lookup k) := by
  simp only [create_session] at hcreate
  by_cases hdup :
      (reg.active_sessions.lookup (sid0.getD ("session_" ++ toString now))).isSome = true
  · rw [if_pos hdup] at hcreate
    cases hcreate
  · rw [if_neg hdup] at hcreate
    rw [Option.some.injEq, Prod.mk.injEq] at hcreate
    obtain ⟨hsid, hX⟩ := hcreate
    rw [hsid] at hdup hX
    have hfresh : sid ∉ reg.active_sessions.map Prod.fst := by
      rw [← lookup_isSome_iff]
      simpa using hdup
    have hfreshm : sid ∉ reg.session_metadata.map Prod.fst := hkeys ▸ hfresh
    rw [dictInsert_of_not_mem sid (ConversationMemory.mk0 mh now)
        reg.active_sessions hfresh,
      dictInsert_of_not_mem sid _ reg.session_metadata hfreshm] at hX
    rw [cleanup_old_sessions] at hX
    have hlen_eq : reg.active_sessions.length = reg.session_metadata.length := by
      have := congrArg List.length hkeys
      simpa using this
    have hcond : ¬ ((reg.active_sessions ++
        [(sid, ConversationMemory.mk0 mh now)]).length ≤ reg.max_sessions) := by
      simp only [List.length_append, List.length_cons, List.length_nil]
      omega
    rw [if_neg hcond] at hX
    dsimp only at hX
    set meta1 := reg.session_metadata ++
      [(sid, ({ created_at := now, last_accessed := now, message_count := 0,
                max_history := mh } : SessionMeta))] with hmeta1def
    set active1 := reg.active_sessions ++ [(sid, ConversationMemory.mk0 mh now)]
      with hactive1def
    set sorted := List.insertionSort
      (fun a b => a.2.last_accessed ≤ b.2.last_accessed) meta1 with hsorteddef
    set D := sorted.take (sorted.length - reg.max_sessions + 1) with hDdef
    have hkeys1 : active1.map Prod.fst = meta1.map Prod.fst := by
      rw [hactive1def, hmeta1def]
      simp [hkeys]
    have hnod1 : (meta1.map Prod.fst).Nodup := by
      rw [hmeta1def, List.map_append]
      simp [List.nodup_append, hnod, hfreshm]
    have hDsub : ∀ p ∈ D, p ∈ meta1 := by
      intro p hp
      rw [hDdef] at hp
      have hps : p ∈ sorted := (List.take_sublist _ _).subset hp
      rw [hsorteddef] at hps
      exact (List.perm_insertionSort _ _).subset hps
    have hsubD : ∀ p ∈ D, p.1 ∈ active1.map Prod.fst := by
      intro p hp
      rw [hkeys1]
      exact List.mem_map_of_mem Prod.fst (hDsub p hp)
    have hsortnod : (sorted.map Prod.fst).Nodup := by
      rw [hsorteddef]
      exact ((List.perm_insertionSort _ _).map Prod.fst).nodup_iff.mpr hnod1
    have hnodD : (D.map Prod.fst).Nodup := by
      rw [hDdef]
      exact hsortnod.sublist ((List.take_sublist _ _).map Prod.fst)
    obtain ⟨e1, e2, e3, e4⟩ := fold_delete_spec D
      ({ active_sessions := active1, session_metadata := meta1,
         max_sessions := reg.max_sessions } : Registry) st hsubD hkeys1 hnodD
    rw [hX] at e1 e2 e3 e4
    dsimp only at e1 e2 e3 e4
    have hsubK : ∀ k ∈ D.map Prod.fst, k ∈ meta1.map Prod.fst := by
      intro k hk
      obtain ⟨p, hp, rfl⟩ := List.mem_map.mp hk
      exact List.mem_map_of_mem Prod.fst (hDsub p hp)
    have hsubA : ∀ k ∈ D.map Prod.fst, k ∈ active1.map Prod.fst := by
      intro k hk
      rw [hkeys1]
      exact hsubK k hk
    have hsortlen : sorted.length = meta1.length := by
      rw [hsorteddef]
      exact (List.perm_insertionSort _ _).length_eq
    have hm1len : meta1.length = reg.session_metadata.length + 1 := by
      rw [hmeta1def]
      simp
    have ha1len : active1.length = reg.active_sessions.length + 1 := by
      rw [hactive1def]
      simp
    have ha1nod : (active1.map Prod.fst).Nodup := by
      rw [hkeys1]
      exact hnod1
    have hlenD : (D.map Prod.fst).length =
        min (sorted.length - reg.max_sessions + 1) sorted.length := by
      rw [List.length_map, hDdef, List.length_take]
    refine ⟨?_, ?_, ?_, ?_, ?_⟩
    · rw [e1, length_filter_key_not_mem active1 (D.map Prod.fst) ha1nod hnodD hsubA,
        hlenD, hsortlen, hm1len, ha1len]
      omega
    · rw [e1, e2,
        map_fst_filter_key (fun k => decide (k ∉ D.map Prod.fst)) active1,
        map_fst_filter_key (fun k => decide (k ∉ D.map Prod.fst)) meta1, hkeys1]
    · rw [e2]
      exact List.filter_sublist meta1
    · intro q hq hqnot
      have hq1 : q ∈ meta1 := hq
      have hqD : q.1 ∈ D.map Prod.fst := by
        by_contra hqd
        apply hqnot
        rw [e2, map_fst_filter_key (fun k => decide (k ∉ D.map Prod.fst)) meta1]
        rw [List.mem_filter]
        exact ⟨List.mem_map_of_mem Prod.fst hq1, by simpa using hqd⟩
      refine ⟨?_, ?_, ?_⟩
      · rw [lookup_eq_none_iff, e1,
          map_fst_filter_key (fun k => decide (k ∉ D.map Prod.fst)) active1]
        intro hmem
        have := (List.mem_filter.mp hmem).2
        simp only [decide_eq_true_eq] at this
        exact this hqD
      · rw [e4]
        exact lookup_filter_key_mem st (D.map Prod.fst) q.1 hqD
      · intro p hp
        rw [e2] at hp
        have hpm1 : p ∈ meta1 := (List.mem_filter.mp hp).1
        have hpD : p.1 ∉ D.map Prod.fst := by
          have := (List.mem_filter.mp hp).2
          simpa using this
        obtain ⟨q', hq'D, hq'key⟩ := List.mem_map.mp hqD
        have hq'm1 : q' ∈ meta1 := hDsub q' hq'D
        have hq'q : q' = q := entry_unique_of_nodup_keys hnod1 hq'm1 hq1 hq'key
        have hpsorted : p ∈ sorted := by
          rw [hsorteddef]
          exact (List.perm_insertionSort _ _).mem_iff.mpr hpm1
        have hpnotD : p ∉ D := fun hpd => hpD (List.mem_map_of_mem Prod.fst hpd)
        have hpdrop : p ∈ sorted.drop (sorted.length - reg.max_sessions + 1) :=
          mem_drop_of_not_mem_take hpsorted (hDdef ▸ hpnotD)
        have hq'take : q' ∈ sorted.take (sorted.length - reg.max_sessions + 1) :=
          hDdef ▸ hq'D
        have hsortpair : sorted.Pairwise
            (fun a b => a.2.last_accessed ≤ b.2.last_accessed) := by
          rw [hsorteddef]
          exact pairwise_insertionSortAsc
            (fun x : String × SessionMeta => x.2.last_accessed) meta1
        have := pairwise_take_drop hsortpair _ q' hq'take p hpdrop
        rw [hq'q] at this
        exact this
    · intro k hk
      have hkD : k ∉ D.map Prod.fst := by
        rcases hk with hk | hk
        · rw [e2, map_fst_filter_key (fun k => decide (k ∉ D.map Prod.fst)) meta1] at hk
          have := (List.mem_filter.mp hk).2
          simpa using this
        · intro hkd
          exact hk (hsubK k hkd)
      rw [e4]
      exact lookup_filter_key_not_mem st (D.map Prod.fst) k hkD

/-- C1 counterexample.  With `max_sessions = 2`, creating S1, S2, S3 at
times 1, 2, 3 leaves exactly one active session (S3), not the claimed two:
the cleanup deletes `count - max_sessions + 1 = 2` sessions instead of
stopping at `count ≤ max_sessions`. -/
theorem C1_counterexample :
    (c1chain.map fun p => p.2.1.active_sessions.map Prod.fst) = some ["S3"] ∧
    (c1chain.map fun p => p.2.1.active_sessions.length) ≠ some 2 := by
  decide

/-- Witness for C1 as amended, at the concrete S1/S2/S3 run: creating S3
over capacity leaves `max_sessions - 1 = 1` active session. -/
theorem C1_witness :
    create_session c1regBefore [] (some "S3") 50 3 = some ("S3", c1regAfter, []) ∧
    c1regAfter.active_sessions.length = c1regBefore.max_sessions - 1 := by
  refine ⟨by decide, ?_⟩
  exact (C1_amended c1regBefore [] (some "S3") 50 3 "S3" c1regAfter []
    (by decide) (by decide) (by decide) (by decide)).1

end EvoVerse